import Mathlib

/-!
# Verification of the ex_doc autocomplete suggestion engine

Shallow embedding of `src/assets/js/autocomplete/suggestions.js`.

Modelling conventions:
* JS strings are Lean `String`; matching works on the underlying `List Char`.
* The regex `new RegExp(helpers.escapeText(term), 'i')` is modelled from the
  spec (the `helpers` module is not part of the sources): `escapeText`
  neutralizes all regex metacharacters, so the matcher is a case-insensitive
  literal substring search.  Case folding is modelled on ASCII letters
  (`lowerChar`), matching the behaviour of the `'i'` flag on the identifiers
  the engine handles.
* JS values that may be `undefined`/`null` are `Option`; JS truthiness of a
  string is the test against `""`/absence.
* The one fallible spot of the code — `highlight` applied to the result of
  `element.id.match(matcherWithoutParent)`, which throws when that value is
  `null` or when `element.id` is the empty string (falsy) — is modelled with
  `Except Unit`.
* `Array.prototype.sort` is stable (ECMAScript 2019); both sorts of the code
  are embedded as stable insertion sorts over the same comparator.
  `String.prototype.localeCompare` is modelled as code-point order.
-/

namespace Suggestions

/-- ASCII case folding, modelling the `'i'` regex flag on the ASCII range. -/
def lowerChar (c : Char) : Char :=
  match c with
  | 'A' => 'a' | 'B' => 'b' | 'C' => 'c' | 'D' => 'd' | 'E' => 'e' | 'F' => 'f'
  | 'G' => 'g' | 'H' => 'h' | 'I' => 'i' | 'J' => 'j' | 'K' => 'k' | 'L' => 'l'
  | 'M' => 'm' | 'N' => 'n' | 'O' => 'o' | 'P' => 'p' | 'Q' => 'q' | 'R' => 'r'
  | 'S' => 's' | 'T' => 't' | 'U' => 'u' | 'V' => 'v' | 'W' => 'w' | 'X' => 'x'
  | 'Y' => 'y' | 'Z' => 'z'
  | c => c

/-- Case folding of a character list. -/
def lowerList (l : List Char) : List Char := l.map lowerChar

/-- Index of the first occurrence of `pat` in `s` (literal, case sensitive),
the search semantics of `String.prototype.match` with an escaped pattern
(applied to case-folded lists for the `'i'` flag) and of
`String.prototype.replace` with a string pattern. -/
def findSub (pat : List Char) : List Char → Option Nat
  | [] => if pat.isPrefixOf ([] : List Char) then some 0 else none
  | c :: s => if pat.isPrefixOf (c :: s) then some 0 else (findSub pat s).map (· + 1)

/-- `pat` occurs in `s` at index `i`. -/
def occursAt (pat s : List Char) (i : Nat) : Prop := ∃ r, pat ++ r = s.drop i

/-- A successful JS regex match: `match.input`, `match[0]`, `match.index`. -/
structure MatchInfo where
  input : String
  matched : String
  index : Nat
  deriving DecidableEq, Repr

/-- `s.match(matcher)` where `matcher` is the case-insensitive literal
matcher built from `term` (`new RegExp(helpers.escapeText(term), 'i')`).
Modelled from the spec: `helpers.escapeText` neutralizes regex
metacharacters, so the match is a literal substring search after ASCII case
folding. -/
def matchString (term s : String) : Option MatchInfo :=
  match findSub (lowerList term.data) (lowerList s.data) with
  | none => none
  | some i => some ⟨s, String.mk ((s.data.drop i).take term.data.length), i⟩

/-- Replace the first (case-sensitive, literal) occurrence of `pat` in `s`
by `repl`; the behaviour of `String.prototype.replace` when the pattern is a
plain string.  Unchanged when `pat` does not occur. -/
def replaceFirst (s pat repl : List Char) : List Char :=
  match s with
  | [] => if pat.isPrefixOf ([] : List Char) then repl else []
  | c :: s' => if pat.isPrefixOf (c :: s') then repl ++ (c :: s').drop pat.length
               else c :: replaceFirst s' pat repl

/-- `function highlight (match) { return match.input.replace(match,
`<em>${match[0]}</em>`) }` — the match array coerces to the string
`match[0]` (no capture groups in an escaped pattern). -/
def highlight (m : MatchInfo) : String :=
  String.mk (replaceFirst m.input.data m.matched.data
    ("<em>".data ++ m.matched.data ++ "</em>".data))

/-- Characters after the last dot: `term.split('.').pop()`. -/
def lastSegList (l : List Char) : List Char :=
  (l.reverse.takeWhile (fun c => c != '.')).reverse

/-- `term.split('.').pop()` on strings. -/
def lastSeg (t : String) : String := String.mk (lastSegList t.data)

-- ------------------------------------------------------------------
-- Data model (§3 of the spec / the `sidebarNodes` input contract)
-- ------------------------------------------------------------------

/-- A function/callback/type belonging to an Entry. -/
structure ChildEntry where
  id : String
  anchor : Option String := none
  deriving DecidableEq, Repr

/-- A named collection of children (`{key, nodes}`). -/
structure NodeGroup where
  key : String
  nodes : List ChildEntry
  deriving DecidableEq, Repr

/-- A module/exception/task of the sidebar index. -/
structure Entry where
  id : String
  title : Option String := none
  nodeGroups : List NodeGroup := []
  deriving DecidableEq, Repr

/-- The static sidebar index (`sidebarNodes`). -/
structure Index where
  modules : List Entry := []
  exceptions : List Entry := []
  tasks : List Entry := []
  deriving DecidableEq, Repr

/-- A child match result: the deep copy of a `ChildEntry` annotated with
`match` (field `matchText`; `match` is a Lean keyword) and later with
`label`. -/
structure ChildResult where
  id : String
  anchor : Option String := none
  label : Option String := none
  matchText : String
  deriving DecidableEq, Repr

/-- An entry-level match result produced by `findIn` (fields `functions`,
`callbacks`, `types` hold the sorted child results; `category` is added by
`addCategory`). -/
structure EntryResult where
  id : String
  matchText : Option String
  functions : List ChildResult := []
  callbacks : List ChildResult := []
  types : List ChildResult := []
  category : Option String := none
  deriving DecidableEq, Repr

/-- The per-group-key accumulators held in `result[key]` during the
`nodeGroups` loop of `findIn`: JS objects keyed by child id, modelled as
insertion-ordered association lists. -/
structure GroupAcc where
  functions : List (String × ChildResult) := []
  callbacks : List (String × ChildResult) := []
  types : List (String × ChildResult) := []
  deriving DecidableEq, Repr

/-- The flattened UI-facing shape produced by `serialize`. -/
structure SuggestionItem where
  link : String
  title : Option String
  description : Option String
  label : Option String
  category : Option String
  deriving DecidableEq, Repr

-- ------------------------------------------------------------------
-- Engine (suggestions.js)
-- ------------------------------------------------------------------

/-- `const resultsCount = 5`. -/
def resultsCount : Nat := 5

/-- `const sortingPriority = { 'Module': 3, 'Child': 2, 'Exception': 1,
'Mix Task': 0 }` as a lookup (`undefined` for other keys). -/
def sortingPriority (c : String) : Option Int :=
  if c = "Module" then some 3
  else if c = "Child" then some 2
  else if c = "Exception" then some 1
  else if c = "Mix Task" then some 0
  else none

/-- `sortingPriority[item.category] || -1`: an absent category, a missing
key and the value `0` (falsy!) all yield `-1`. -/
def weightOf (item : SuggestionItem) : Int :=
  match item.category with
  | none => -1
  | some c =>
    match sortingPriority c with
    | none => -1
    | some w => if w = 0 then -1 else w

/-- `JSON.parse(JSON.stringify(element))`: a deep copy of the serializable
fields of a child entry. -/
def deepCopyChild (e : ChildEntry) : ChildEntry :=
  { id := e.id, anchor := e.anchor }

/-- One step of the `findNested` reduce.  `matcher` is the pattern text of
the matcher built in `findIn` (the original query term); `term` is the
current value of the (reassigned) `term` variable.  Returns the annotated
copy and the updated `term`.  The `.error` case is JS throwing inside
`highlight` when `matchWithoutParent` is `null` (or `element.id` is the
falsy `""`). -/
def findNestedElement (e : ChildEntry) (parentId matcher term : String) :
    Except Unit (ChildResult × String) :=
  let fullTitle := parentId ++ "." ++ e.id
  let fullTitleMatch := (matchString matcher (parentId ++ ".")).isNone
    && (matchString matcher fullTitle).isSome
  let m := if e.id = "" then none else matchString matcher e.id
  let result := deepCopyChild e
  match m with
  | some mi =>
    .ok ({ id := result.id, anchor := result.anchor, matchText := highlight mi }, term)
  | none =>
    if fullTitleMatch then
      let term2 := lastSeg term
      match (if e.id = "" then none else matchString term2 e.id) with
      | some mi =>
        .ok ({ id := result.id, anchor := result.anchor, matchText := highlight mi }, term2)
      | none => .error ()
    else
      .ok ({ id := result.id, anchor := result.anchor, matchText := e.id }, term)

/-- The reduce of `findNested`: skips ids already present
(`if (acc[element.id]) return acc`), otherwise appends the annotated copy
under its id (JS objects preserve insertion order). -/
def findNestedGo : List ChildEntry → String → String → String →
    List (String × ChildResult) → Except Unit (List (String × ChildResult))
  | [], _, _, _, acc => .ok acc
  | e :: es, parentId, matcher, term, acc =>
    if (acc.lookup e.id).isSome then
      findNestedGo es parentId matcher term acc
    else
      match findNestedElement e parentId matcher term with
      | .error er => .error er
      | .ok (r, term2) => findNestedGo es parentId matcher term2 (acc ++ [(r.id, r)])

/-- `function findNested (elements, parentId, matcher, term, acc)`. -/
def findNested (elements : List ChildEntry) (parentId matcher term : String)
    (acc : List (String × ChildResult)) : Except Unit (List (String × ChildResult)) :=
  findNestedGo elements parentId matcher term acc

/-- Reading `result[key]` before a group is processed: only the keys
`types`, `callbacks` and `functions` are ever assigned; any other key is
`undefined` (empty). -/
def getKeyAcc (acc : GroupAcc) (key : String) : List (String × ChildResult) :=
  if key = "types" then acc.types
  else if key = "callbacks" then acc.callbacks
  else if key = "functions" then acc.functions
  else []

/-- The assignment `if (key === 'types' || key === 'callbacks')
result[key] = matches else result.functions = matches`. -/
def setKeyAcc (acc : GroupAcc) (key : String) (v : List (String × ChildResult)) : GroupAcc :=
  if key = "types" then { acc with types := v }
  else if key = "callbacks" then { acc with callbacks := v }
  else { acc with functions := v }

/-- The `for (let {key, nodes} of element.nodeGroups)` loop of `findIn`. -/
def groupsLoop : List NodeGroup → GroupAcc → Bool → String → String → String →
    Except Unit (GroupAcc × Bool)
  | [], acc, hasMatch, _, _, _ => .ok (acc, hasMatch)
  | g :: gs, acc, hasMatch, parentId, matcher, term =>
    match findNested g.nodes parentId matcher term (getKeyAcc acc g.key) with
    | .error er => .error er
    | .ok ms =>
      if ms.length > 0 then
        groupsLoop gs (setKeyAcc acc g.key ms) true parentId matcher term
      else
        groupsLoop gs acc hasMatch parentId matcher term

/-- Stable ascending insertion by id, the
`.sort((a, b) => a.id.localeCompare(b.id))` of `findIn`
(`localeCompare` modelled as code-point order; JS sort is stable). -/
def insertById (x : ChildResult) : List ChildResult → List ChildResult
  | [] => [x]
  | y :: ys => if x.id ≤ y.id then x :: y :: ys else y :: insertById x ys

/-- Sorting `Object.values(result[key])` by child id. -/
def sortById (l : List ChildResult) : List ChildResult :=
  l.foldr insertById []

/-- `title && title.match(matcher)` — a missing or empty (falsy) title is
never matched. -/
def entryTitleMatch (element : Entry) (matcher : String) : Option MatchInfo :=
  match element.title with
  | none => none
  | some s => if s = "" then none else matchString matcher s

/-- The `match` field of an entry result:
`titleMatch ? highlight(titleMatch) : element.title`. -/
def entryMatchText (element : Entry) (matcher : String) : Option String :=
  match entryTitleMatch element matcher with
  | some mi => some (highlight mi)
  | none => element.title

/-- The body of the `elements.map` of `findIn` for one entry, returning
`none` for entries filtered away by `.filter((element) => !!element)`.
`findNested` receives the `title` variable as `parentId`; a missing title
is coerced by the template literal to the string `"undefined"`. -/
def findInElement (element : Entry) (term : String) : Except Unit (Option EntryResult) :=
  let matcher := term
  let titleMatch := entryTitleMatch element matcher
  let matchText : Option String := entryMatchText element matcher
  let parentId := match element.title with
    | some s => s
    | none => "undefined"
  match groupsLoop element.nodeGroups {} titleMatch.isSome parentId matcher term with
  | .error er => .error er
  | .ok (acc, hasMatch) =>
    if hasMatch then
      .ok (some { id := element.id, matchText := matchText,
                  functions := sortById (acc.functions.map Prod.snd),
                  callbacks := sortById (acc.callbacks.map Prod.snd),
                  types := sortById (acc.types.map Prod.snd) })
    else
      .ok none

/-- `function findIn (elements, term)`. -/
def findIn : List Entry → String → Except Unit (List EntryResult)
  | [], _ => .ok []
  | e :: es, term =>
    match findInElement e term with
    | .error er => .error er
    | .ok r =>
      match findIn es term with
      | .error er => .error er
      | .ok rs => .ok (match r with | some x => x :: rs | none => rs)

/-- `function addLabel (items, labelName)`. -/
def addLabel (items : List ChildResult) (labelName : String) : List ChildResult :=
  items.map (fun item => { item with label := some labelName })

/-- `function addCategory (modules, categoryName)`. -/
def addCategory (modules : List EntryResult) (categoryName : String) : List EntryResult :=
  modules.map (fun m => { m with category := some categoryName })

/-- `function isMatch (item) { return item.match !== item.id }` applied to
a child result. -/
def isMatchChild (c : ChildResult) : Bool := c.matchText != c.id

/-- `isMatch` applied to an entry-level result (whose `match` may be the
absent title). -/
def isMatchEntry (r : EntryResult) : Bool := r.matchText != some r.id

/-- `serialize(item, moduleId)` with `isChild = true`: `anchor` is falsy
when absent or empty, `label` is `item.label || null`. -/
def serializeChild (item : ChildResult) (moduleId : String) : SuggestionItem :=
  let anchor := item.anchor.getD ""
  let label := if item.label = some "" then none else item.label
  let link := if anchor = "" then moduleId ++ ".html" else moduleId ++ ".html#" ++ anchor
  { link := link, title := some item.matchText, description := some moduleId,
    label := label, category := some "Child" }

/-- `serialize(moduleResults, moduleResults.id, false)`: `anchor` is `''`,
`category` is the tagged category, `description` is `null`. -/
def serializeModule (item : EntryResult) : SuggestionItem :=
  { link := item.id ++ ".html", title := item.matchText, description := none,
    label := none, category := item.category }

/-- `function parseModuleResults (moduleResults)`. -/
def parseModuleResults (moduleResults : EntryResult) : List SuggestionItem :=
  let functions := moduleResults.functions
  let callbacks := addLabel moduleResults.callbacks "callback"
  let types := addLabel moduleResults.types "type"
  let results := ((functions ++ callbacks ++ types).filter isMatchChild).map
    (fun item => serializeChild item moduleResults.id)
  if isMatchEntry moduleResults then serializeModule moduleResults :: results else results

/-- Stable insertion step of the
`results.sort((i1, i2) => weight2 - weight1)` descending sort: a JS sort is
stable, so an inserted element passes exactly the strictly heavier ones. -/
def insertByWeight (x : SuggestionItem) : List SuggestionItem → List SuggestionItem
  | [] => [x]
  | y :: ys => if weightOf y ≤ weightOf x then x :: y :: ys else y :: insertByWeight x ys

/-- The stable descending sort by `sortingPriority` of `getSuggestions`. -/
def sortResults (l : List SuggestionItem) : List SuggestionItem :=
  l.foldr insertByWeight []

/-- `results.reduce((acc, moduleResults) =>
acc.concat(parseModuleResults(moduleResults)), [])`. -/
def flattenResults (rs : List EntryResult) : List SuggestionItem :=
  rs.foldl (fun acc r => acc ++ parseModuleResults r) []

/-- Lines 95–103 of `getSuggestions`: the three `findIn` searches and the
category tagging, concatenated. -/
def allResults (idx : Index) (term : String) : Except Unit (List EntryResult) :=
  match findIn idx.modules term with
  | .error er => .error er
  | .ok modules =>
    match findIn idx.exceptions term with
    | .error er => .error er
    | .ok exceptions =>
      match findIn idx.tasks term with
      | .error er => .error er
      | .ok tasks =>
        .ok (addCategory modules "Module" ++ addCategory exceptions "Exception"
          ++ addCategory tasks "Mix Task")

/-- `function getSuggestions (term)`; `term.trim().length === 0` holds
exactly when every character of `term` is whitespace. -/
def getSuggestions (idx : Index) (term : String) : Except Unit (List SuggestionItem) :=
  if term.data.all Char.isWhitespace then .ok []
  else
    match allResults idx term with
    | .error er => .error er
    | .ok results => .ok ((sortResults (flattenResults results)).take resultsCount)

-- ------------------------------------------------------------------
-- Basic facts about the literal substring search
-- ------------------------------------------------------------------

theorem isPrefixOf_iff : ∀ (p s : List Char), p.isPrefixOf s = true ↔ ∃ r, p ++ r = s
  | [], s => by simp [List.isPrefixOf]
  | a :: p, [] => by simp [List.isPrefixOf]
  | a :: p, b :: s => by
    simp only [List.isPrefixOf, Bool.and_eq_true, beq_iff_eq, isPrefixOf_iff p s,
      List.cons_append, List.cons.injEq]
    constructor
    · rintro ⟨rfl, r, rfl⟩; exact ⟨r, rfl, rfl⟩
    · rintro ⟨r, rfl, rfl⟩; exact ⟨rfl, r, rfl⟩

theorem findSub_some_occurs : ∀ {s p : List Char} {i : Nat},
    findSub p s = some i → occursAt p s i := by
  intro s
  induction s with
  | nil =>
    intro p i h
    unfold findSub at h
    split at h
    · next hp =>
      obtain ⟨r, hr⟩ := (isPrefixOf_iff _ _).mp hp
      cases h; exact ⟨r, hr⟩
    · cases h
  | cons c s ih =>
    intro p i h
    unfold findSub at h
    split at h
    · next hp =>
      obtain ⟨r, hr⟩ := (isPrefixOf_iff _ _).mp hp
      cases h; exact ⟨r, hr⟩
    · next hp =>
      obtain ⟨i', hi', rfl⟩ := Option.map_eq_some'.mp h
      obtain ⟨r, hr⟩ := ih hi'
      exact ⟨r, hr⟩

theorem occurs_findSub_isSome : ∀ {s p : List Char} (i : Nat),
    occursAt p s i → (findSub p s).isSome = true := by
  intro s
  induction s with
  | nil =>
    intro p i ⟨r, hr⟩
    simp only [List.drop_nil] at hr
    have hp : p.isPrefixOf ([] : List Char) = true :=
      (isPrefixOf_iff _ _).mpr ⟨r, hr⟩
    unfold findSub
    simp [hp]
  | cons c s ih =>
    intro p i h
    unfold findSub
    split
    · simp
    · next hp =>
      match i, h with
      | 0, ⟨r, hr⟩ =>
        exact absurd ((isPrefixOf_iff _ _).mpr ⟨r, hr⟩) (by simp [hp])
      | i + 1, ⟨r, hr⟩ =>
        have := ih i ⟨r, hr⟩
        simpa using this

theorem findSub_min : ∀ {s p : List Char} {i : Nat},
    findSub p s = some i → ∀ j, j < i → ¬ occursAt p s j := by
  intro s
  induction s with
  | nil =>
    intro p i h j hj
    unfold findSub at h
    split at h
    · cases h; omega
    · cases h
  | cons c s ih =>
    intro p i h j hj
    unfold findSub at h
    split at h
    · cases h; omega
    · next hp =>
      obtain ⟨i', hi', rfl⟩ := Option.map_eq_some'.mp h
      match j with
      | 0 =>
        rintro ⟨r, hr⟩
        exact absurd ((isPrefixOf_iff _ _).mpr ⟨r, hr⟩) (by simp [hp])
      | j + 1 =>
        rintro ⟨r, hr⟩
        exact ih hi' j (by omega) ⟨r, hr⟩

theorem findSub_none : ∀ {s p : List Char},
    findSub p s = none → ∀ j, ¬ occursAt p s j := by
  intro s p h j hocc
  have := occurs_findSub_isSome j hocc
  rw [h] at this
  simp at this

theorem occursAt_bound {p s : List Char} {i : Nat} (hp : p ≠ [])
    (h : occursAt p s i) : i + p.length ≤ s.length := by
  obtain ⟨r, hr⟩ := h
  have hl := congrArg List.length hr
  simp only [List.length_append, List.length_drop] at hl
  have hp1 : 1 ≤ p.length := by
    cases p with
    | nil => exact absurd rfl hp
    | cons a p => simp
  omega

theorem occursAt_right {p x y : List Char} {i : Nat}
    (h : occursAt p (x ++ y) i) (hi : x.length ≤ i) : occursAt p y (i - x.length) := by
  obtain ⟨r, hr⟩ := h
  rw [List.drop_append_eq_append_drop, List.drop_eq_nil_of_le hi, List.nil_append] at hr
  exact ⟨r, hr⟩

theorem occursAt_left {p x y : List Char} {i : Nat}
    (h : occursAt p (x ++ y) i) (hi : i + p.length ≤ x.length) : occursAt p x i := by
  obtain ⟨r, hr⟩ := h
  rw [List.drop_append_eq_append_drop, Nat.sub_eq_zero_of_le (by omega), List.drop_zero] at hr
  have hlen : p.length ≤ (x.drop i).length := by
    simp only [List.length_drop]; omega
  have hp : p = (x.drop i).take p.length := by
    have h1 : (p ++ r).take p.length = p := List.take_left p r
    have h2 : ((x.drop i) ++ y).take p.length = (x.drop i).take p.length :=
      List.take_append_of_le_length hlen
    conv_lhs => rw [← h1, hr]
    exact h2
  refine ⟨(x.drop i).drop p.length, ?_⟩
  calc p ++ (x.drop i).drop p.length
      = (x.drop i).take p.length ++ (x.drop i).drop p.length := by rw [← hp]
    _ = x.drop i := List.take_append_drop _ _

theorem occursAt_drop {p s : List Char} {i : Nat} (h : occursAt p s i) (d : Nat) :
    occursAt (p.drop d) s (d + i) := by
  obtain ⟨r, hr⟩ := h
  refine ⟨r.drop (d - p.length), ?_⟩
  rw [← List.drop_append_eq_append_drop, hr, List.drop_drop]
  congr 1
  omega

-- ------------------------------------------------------------------
-- Case folding facts
-- ------------------------------------------------------------------

theorem lowerChar_dot (a : Char) : ((lowerChar a) != '.') = (a != '.') := by
  unfold lowerChar
  split <;> simp_all

-- ------------------------------------------------------------------
-- Facts about the last dot-separated segment
-- ------------------------------------------------------------------

theorem lastSegList_eq_drop (l : List Char) :
    lastSegList l = l.drop (l.length - (l.reverse.takeWhile (fun c => c != '.')).length) := by
  unfold lastSegList
  have hsplit : l.reverse.takeWhile (fun c => c != '.')
      ++ l.reverse.dropWhile (fun c => c != '.') = l.reverse :=
    List.takeWhile_append_dropWhile _ _
  have hl : l = (l.reverse.dropWhile (fun c => c != '.')).reverse
      ++ (l.reverse.takeWhile (fun c => c != '.')).reverse := by
    have h := congrArg List.reverse hsplit
    rw [List.reverse_append, List.reverse_reverse] at h
    exact h.symm
  have hlen : (l.reverse.dropWhile (fun c => c != '.')).reverse.length =
      l.length - (l.reverse.takeWhile (fun c => c != '.')).length := by
    have := congrArg List.length hsplit
    simp only [List.length_append, List.length_reverse] at this ⊢
    omega
  calc (l.reverse.takeWhile (fun c => c != '.')).reverse
      = ((l.reverse.dropWhile (fun c => c != '.')).reverse
          ++ (l.reverse.takeWhile (fun c => c != '.')).reverse).drop
          (l.reverse.dropWhile (fun c => c != '.')).reverse.length := by
        rw [List.drop_left]
    _ = l.drop (l.length - (l.reverse.takeWhile (fun c => c != '.')).length) := by
        rw [← hl, hlen]

theorem lastSegList_dot_le {l : List Char} {k : Nat} (hdot : occursAt ['.'] l k) :
    k + 1 ≤ l.length - (l.reverse.takeWhile (fun c => c != '.')).length := by
  have hkb : k + 1 ≤ l.length := by
    have := occursAt_bound (by simp) hdot
    simpa using this
  have hsplit : l.reverse.takeWhile (fun c => c != '.')
      ++ l.reverse.dropWhile (fun c => c != '.') = l.reverse :=
    List.takeWhile_append_dropWhile _ _
  have hwlen : (l.reverse.takeWhile (fun c => c != '.')).length ≤ l.length := by
    have := congrArg List.length hsplit
    simp only [List.length_append, List.length_reverse] at this
    omega
  by_contra hcon
  have hl : l = (l.reverse.dropWhile (fun c => c != '.')).reverse
      ++ (l.reverse.takeWhile (fun c => c != '.')).reverse := by
    have h := congrArg List.reverse hsplit
    rw [List.reverse_append, List.reverse_reverse] at h
    exact h.symm
  have hdlen : (l.reverse.dropWhile (fun c => c != '.')).reverse.length =
      l.length - (l.reverse.takeWhile (fun c => c != '.')).length := by
    have := congrArg List.length hsplit
    simp only [List.length_append, List.length_reverse] at this ⊢
    omega
  obtain ⟨r, hr⟩ := hdot
  rw [hl, List.drop_append_eq_append_drop,
    List.drop_eq_nil_of_le (by rw [hdlen]; omega), List.nil_append] at hr
  have hmem : '.' ∈ (l.reverse.takeWhile (fun c => c != '.')).reverse.drop
      (k - (l.reverse.dropWhile (fun c => c != '.')).reverse.length) := by
    rw [← hr]; simp
  have hmem2 : '.' ∈ l.reverse.takeWhile (fun c => c != '.') := by
    have := List.mem_of_mem_drop hmem
    simpa using this
  have := List.mem_takeWhile_imp hmem2
  simp at this

theorem lastSegList_map_lower (l : List Char) :
    lastSegList (lowerList l) = lowerList (lastSegList l) := by
  unfold lastSegList lowerList
  rw [← List.map_reverse, List.takeWhile_map, ← List.map_reverse]
  congr 1
  have : ((fun c => c != '.') ∘ lowerChar) = (fun c : Char => c != '.') := by
    funext a
    exact lowerChar_dot a
  rw [this]

theorem lastSegList_idem (l : List Char) : lastSegList (lastSegList l) = lastSegList l := by
  unfold lastSegList
  rw [List.reverse_reverse]
  congr 1
  apply List.takeWhile_eq_self_iff.mpr
  intro x hx
  exact List.mem_takeWhile_imp (p := fun c => c != '.') hx

-- ------------------------------------------------------------------
-- The crux: a qualified-name match always leaves a match for the
-- reduced term inside the child id
-- ------------------------------------------------------------------

theorem crux {lt D lc : List Char} {i : Nat}
    (hQ : ∀ j, ¬ occursAt lt (D ++ ['.']) j)
    (hc : ∀ j, ¬ occursAt lt lc j)
    (hocc : occursAt lt ((D ++ ['.']) ++ lc) i) :
    ∃ j, occursAt (lastSegList lt) lc j := by
  set m := D.length + 1 with hm
  have hmlen : (D ++ ['.']).length = m := by simp [hm]
  have hlt : lt ≠ [] := by
    rintro rfl
    exact hc 0 ⟨lc, by simp⟩
  have hbound : i + lt.length ≤ ((D ++ ['.']) ++ lc).length := occursAt_bound hlt hocc
  have h3 : ¬ (i + lt.length ≤ m) := by
    intro hle
    exact hQ i (occursAt_left hocc (by rw [hmlen]; omega))
  have h4 : i < m := by
    by_contra hge
    have h := occursAt_right hocc (by rw [hmlen]; omega : (D ++ ['.']).length ≤ i)
    rw [hmlen] at h
    exact hc (i - m) h
  set k₀ := m - 1 - i with hk₀
  have hk₀lt : k₀ < lt.length := by omega
  have hdot : occursAt ['.'] lt k₀ := by
    obtain ⟨r, hr⟩ := hocc
    have hS : ((D ++ ['.']) ++ lc).drop (i + k₀) = ['.'] ++ lc := by
      have h1 : i + k₀ = D.length := by omega
      rw [h1, List.append_assoc]
      exact List.drop_left D (['.'] ++ lc)
    have h2 : lt.drop k₀ ++ r = ['.'] ++ lc := by
      have h3 : (lt ++ r).drop k₀ = lt.drop k₀ ++ r := by
        rw [List.drop_append_eq_append_drop, Nat.sub_eq_zero_of_le (by omega),
          List.drop_zero]
      calc lt.drop k₀ ++ r = (lt ++ r).drop k₀ := h3.symm
        _ = (((D ++ ['.']) ++ lc).drop i).drop k₀ := by rw [hr]
        _ = ((D ++ ['.']) ++ lc).drop (i + k₀) := by
            rw [List.drop_drop]
        _ = ['.'] ++ lc := hS
    have h4 : lt.drop k₀ ≠ [] := by
      intro hnil
      have := congrArg List.length hnil
      simp only [List.length_drop, List.length_nil] at this
      omega
    obtain ⟨b, L, hbL⟩ := List.exists_cons_of_ne_nil h4
    rw [hbL] at h2
    rw [List.singleton_append] at h2
    have h5 : b = '.' := by
      have := congrArg List.head? h2
      simpa using this
    exact ⟨L, by rw [hbL, h5, List.singleton_append]⟩
  set d := lt.length - (lt.reverse.takeWhile (fun c => c != '.')).length with hd
  have hdge : k₀ + 1 ≤ d := lastSegList_dot_le hdot
  have hseg : lastSegList lt = lt.drop d := lastSegList_eq_drop lt
  have h8 : occursAt (lt.drop d) ((D ++ ['.']) ++ lc) (d + i) := occursAt_drop hocc d
  have h9 : m ≤ d + i := by omega
  have h10 := occursAt_right h8 (by omega : (D ++ ['.']).length ≤ d + i)
  rw [hmlen] at h10
  exact ⟨d + i - m, by rw [hseg]; exact h10⟩

-- ------------------------------------------------------------------
-- String-level bridge
-- ------------------------------------------------------------------

theorem data_append (a b : String) : (a ++ b).data = a.data ++ b.data := rfl

theorem lowerList_append (a b : List Char) :
    lowerList (a ++ b) = lowerList a ++ lowerList b := List.map_append lowerChar a b

theorem lowerList_dot : lowerList ['.'] = ['.'] := rfl

theorem lastSeg_data (t : String) : (lastSeg t).data = lastSegList t.data := rfl

theorem lastSeg_idem (t : String) : lastSeg (lastSeg t) = lastSeg t :=
  congrArg String.mk (lastSegList_idem t.data)

theorem matchString_eq_none (t s : String) :
    matchString t s = none ↔ findSub (lowerList t.data) (lowerList s.data) = none := by
  unfold matchString
  cases h : findSub (lowerList t.data) (lowerList s.data) <;> simp

theorem matchString_isSome (t s : String) :
    (matchString t s).isSome = (findSub (lowerList t.data) (lowerList s.data)).isSome := by
  unfold matchString
  cases h : findSub (lowerList t.data) (lowerList s.data) <;> simp

/-- If the matcher for `t` matches neither the parent-dot text nor the
child id alone, but matches their concatenation, then the matcher built
from the last dot-segment of `t` matches the child id. -/
theorem reducedMatch_isSome {t P c : String} (hP : matchString t (P ++ ".") = none)
    (hc : matchString t c = none)
    (hfull : (matchString t (P ++ "." ++ c)).isSome = true) :
    (matchString (lastSeg t) c).isSome = true := by
  have hPd : lowerList (P ++ ".").data = lowerList P.data ++ ['.'] := by
    rw [data_append, lowerList_append, lowerList_dot]
  have hfd : lowerList (P ++ "." ++ c).data
      = (lowerList P.data ++ ['.']) ++ lowerList c.data := by
    rw [data_append, data_append, lowerList_append, lowerList_append, lowerList_dot]
  have hQ : ∀ j, ¬ occursAt (lowerList t.data) (lowerList P.data ++ ['.']) j := by
    have h := (matchString_eq_none t (P ++ ".")).mp hP
    rw [hPd] at h
    exact findSub_none h
  have hcx : ∀ j, ¬ occursAt (lowerList t.data) (lowerList c.data) j :=
    findSub_none ((matchString_eq_none t c).mp hc)
  rw [matchString_isSome] at hfull
  obtain ⟨i, hi⟩ := Option.isSome_iff_exists.mp hfull
  rw [hfd] at hi
  have hocc := findSub_some_occurs hi
  obtain ⟨j, hj⟩ := crux hQ hcx hocc
  rw [matchString_isSome, lastSeg_data, ← lastSegList_map_lower]
  exact occurs_findSub_isSome j hj

-- ------------------------------------------------------------------
-- No-error safety of the engine (decided by the crux)
-- ------------------------------------------------------------------

/-- The hypothesis of the implicit-safety claim: every `ChildEntry` id in
the index is non-empty. -/
def childIdsNonEmpty (idx : Index) : Prop :=
  ∀ el ∈ idx.modules ++ idx.exceptions ++ idx.tasks,
    ∀ g ∈ el.nodeGroups, ∀ e ∈ g.nodes, e.id ≠ ""

instance (idx : Index) : Decidable (childIdsNonEmpty idx) := by
  unfold childIdsNonEmpty
  infer_instance

theorem findNestedElement_ok (e : ChildEntry) (parentId matcher term : String)
    (hid : e.id ≠ "") (hseg : lastSeg term = lastSeg matcher) :
    ∃ r term2, findNestedElement e parentId matcher term = .ok (r, term2)
      ∧ lastSeg term2 = lastSeg matcher := by
  unfold findNestedElement
  simp only [if_neg hid]
  cases hm : matchString matcher e.id with
  | some mi => exact ⟨_, term, rfl, hseg⟩
  | none =>
    cases hft : ((matchString matcher (parentId ++ ".")).isNone
        && (matchString matcher (parentId ++ "." ++ e.id)).isSome) with
    | false =>
      simp only [Bool.false_eq_true, if_false]
      exact ⟨_, term, rfl, hseg⟩
    | true =>
      simp only [if_true]
      simp only [Bool.and_eq_true] at hft
      obtain ⟨hnone, hsome⟩ := hft
      have hP : matchString matcher (parentId ++ ".") = none :=
        Option.isNone_iff_eq_none.mp hnone
      have hred : (matchString (lastSeg matcher) e.id).isSome = true :=
        reducedMatch_isSome hP hm hsome
      rw [← hseg] at hred
      obtain ⟨mi, hmi⟩ := Option.isSome_iff_exists.mp hred
      rw [hmi]
      exact ⟨_, lastSeg term, rfl, by rw [lastSeg_idem, hseg]⟩

theorem findNestedGo_ok (es : List ChildEntry) :
    ∀ (parentId matcher term : String) (acc : List (String × ChildResult)),
    (∀ e ∈ es, e.id ≠ "") → lastSeg term = lastSeg matcher →
    ∃ l, findNestedGo es parentId matcher term acc = .ok l := by
  induction es with
  | nil => intro _ _ _ acc _ _; exact ⟨acc, rfl⟩
  | cons e es ih =>
    intro parentId matcher term acc hids hseg
    unfold findNestedGo
    by_cases hlk : (acc.lookup e.id).isSome
    · rw [if_pos hlk]
      exact ih parentId matcher term acc (fun x hx => hids x (by simp [hx])) hseg
    · rw [if_neg hlk]
      obtain ⟨r, term2, hr, hseg2⟩ :=
        findNestedElement_ok e parentId matcher term (hids e (by simp)) hseg
      rw [hr]
      exact ih parentId matcher term2 (acc ++ [(r.id, r)])
        (fun x hx => hids x (by simp [hx])) hseg2

theorem groupsLoop_ok (gs : List NodeGroup) :
    ∀ (acc : GroupAcc) (hm : Bool) (parentId matcher term : String),
    (∀ g ∈ gs, ∀ e ∈ g.nodes, e.id ≠ "") → lastSeg term = lastSeg matcher →
    ∃ res, groupsLoop gs acc hm parentId matcher term = .ok res := by
  induction gs with
  | nil => intro acc hm _ _ _ _ _; exact ⟨(acc, hm), rfl⟩
  | cons g gs ih =>
    intro acc hm parentId matcher term hids hseg
    obtain ⟨l, hl⟩ := findNestedGo_ok g.nodes parentId matcher term
      (getKeyAcc acc g.key) (fun e he => hids g (by simp) e he) hseg
    simp only [groupsLoop, findNested, hl]
    by_cases hlen : l.length > 0
    · rw [if_pos hlen]
      exact ih _ true parentId matcher term
        (fun x hx => hids x (by simp [hx])) hseg
    · rw [if_neg hlen]
      exact ih acc hm parentId matcher term
        (fun x hx => hids x (by simp [hx])) hseg

theorem findInElement_ok (element : Entry) (term : String)
    (h : ∀ g ∈ element.nodeGroups, ∀ e ∈ g.nodes, e.id ≠ "") :
    ∃ r, findInElement element term = .ok r := by
  obtain ⟨res, hres⟩ := groupsLoop_ok element.nodeGroups {}
    (entryTitleMatch element term).isSome
    (match element.title with | some s => s | none => "undefined") term term h rfl
  obtain ⟨acc2, hm2⟩ := res
  simp only [findInElement, hres]
  cases hm2 <;> exact ⟨_, rfl⟩

theorem findIn_ok (es : List Entry) (term : String)
    (h : ∀ el ∈ es, ∀ g ∈ el.nodeGroups, ∀ e ∈ g.nodes, e.id ≠ "") :
    ∃ rs, findIn es term = .ok rs := by
  induction es with
  | nil => exact ⟨[], rfl⟩
  | cons e es ih =>
    obtain ⟨r, hr⟩ := findInElement_ok e term (h e (by simp))
    obtain ⟨rs, hrs⟩ := ih (fun x hx => h x (by simp [hx]))
    simp only [findIn, hr, hrs]
    exact ⟨_, rfl⟩

theorem allResults_ok (idx : Index) (term : String) (h : childIdsNonEmpty idx) :
    ∃ rs, allResults idx term = .ok rs := by
  unfold childIdsNonEmpty at h
  obtain ⟨ms, hms⟩ := findIn_ok idx.modules term (fun el hel => h el (by simp [hel]))
  obtain ⟨es, hes⟩ := findIn_ok idx.exceptions term (fun el hel => h el (by simp [hel]))
  obtain ⟨ts, hts⟩ := findIn_ok idx.tasks term (fun el hel => h el (by simp [hel]))
  simp only [allResults, hms, hes, hts]
  exact ⟨_, rfl⟩

theorem getSuggestions_ok (idx : Index) (term : String) (h : childIdsNonEmpty idx) :
    ∃ l, getSuggestions idx term = .ok l := by
  unfold getSuggestions
  by_cases hw : term.data.all Char.isWhitespace
  · rw [if_pos hw]; exact ⟨[], rfl⟩
  · rw [if_neg hw]
    obtain ⟨rs, hrs⟩ := allResults_ok idx term h
    simp only [hrs]
    exact ⟨_, rfl⟩

-- ------------------------------------------------------------------
-- Characterisation of highlight (for the highlighting-scope claim)
-- ------------------------------------------------------------------

theorem findSub_eq_some_of {p s : List Char} {i : Nat} (hocc : occursAt p s i)
    (hmin : ∀ j, j < i → ¬ occursAt p s j) : findSub p s = some i := by
  have hs := occurs_findSub_isSome i hocc
  obtain ⟨i0, hi0⟩ := Option.isSome_iff_exists.mp hs
  have h1 := findSub_some_occurs hi0
  have h2 := findSub_min hi0
  rcases Nat.lt_trichotomy i0 i with h | h | h
  · exact absurd h1 (hmin i0 h)
  · rw [h] at hi0; exact hi0
  · exact absurd hocc (h2 i h)

theorem replaceFirst_of_findSub : ∀ {s pat : List Char} {i : Nat} (repl : List Char),
    findSub pat s = some i →
    replaceFirst s pat repl = s.take i ++ repl ++ s.drop (i + pat.length) := by
  intro s
  induction s with
  | nil =>
    intro pat i repl h
    unfold findSub at h
    split at h
    · next hp =>
      cases h
      have hpnil : pat = [] := by
        obtain ⟨r, hr⟩ := (isPrefixOf_iff _ _).mp hp
        cases pat with
        | nil => rfl
        | cons a as => cases hr
      unfold replaceFirst
      rw [if_pos hp]
      simp [hpnil]
    · cases h
  | cons c s ih =>
    intro pat i repl h
    unfold findSub at h
    split at h
    · next hp =>
      cases h
      unfold replaceFirst
      rw [if_pos hp]
      simp
    · next hp =>
      obtain ⟨i', hi', rfl⟩ := Option.map_eq_some'.mp h
      unfold replaceFirst
      rw [if_neg (by simpa using hp), ih repl hi']
      have harith : i' + 1 + pat.length = (i' + pat.length) + 1 := by omega
      rw [harith, List.drop_succ_cons, List.take_succ_cons]
      simp

theorem matchString_some_elim {t s : String} {mi : MatchInfo}
    (h : matchString t s = some mi) :
    findSub (lowerList t.data) (lowerList s.data) = some mi.index ∧
    mi.input = s ∧ mi.matched.data = (s.data.drop mi.index).take t.data.length := by
  unfold matchString at h
  cases hf : findSub (lowerList t.data) (lowerList s.data) with
  | none => rw [hf] at h; cases h
  | some i => rw [hf] at h; cases h; exact ⟨rfl, rfl, rfl⟩

/-- The case-sensitive first occurrence of the matched text is exactly the
match index: `String.prototype.replace` with the stringified match array
re-finds the very span the case-insensitive matcher found. -/
theorem matched_cs_occurrence {t s : String} {mi : MatchInfo}
    (h : matchString t s = some mi) :
    findSub mi.matched.data s.data = some mi.index := by
  obtain ⟨hf, _, hm⟩ := matchString_some_elim h
  have hocc := findSub_some_occurs hf
  have hltlen : (lowerList t.data).length = t.data.length := by simp [lowerList]
  apply findSub_eq_some_of
  · exact ⟨(s.data.drop mi.index).drop t.data.length, by
      rw [hm]; exact List.take_append_drop _ _⟩
  · intro j hj ⟨r, hr⟩
    apply findSub_min hf j hj
    have h1 : lowerList mi.matched.data
        = ((lowerList s.data).drop mi.index).take t.data.length := by
      rw [hm]
      unfold lowerList
      rw [List.map_take, List.map_drop]
    have h2 : lowerList t.data
        = ((lowerList s.data).drop mi.index).take t.data.length := by
      obtain ⟨r0, hr0⟩ := hocc
      have htk := List.take_left (lowerList t.data) r0
      rw [hr0] at htk
      rw [← hltlen]
      exact htk.symm
    refine ⟨lowerList r, ?_⟩
    have h3 := congrArg lowerList hr
    rw [lowerList_append] at h3
    rw [h1, ← h2] at h3
    rw [h3]
    unfold lowerList
    rw [List.map_drop]

/-- `highlight` wraps exactly the span the matcher found, leaving the rest
of the string unchanged. -/
theorem highlight_eq {t s : String} {mi : MatchInfo} (h : matchString t s = some mi) :
    highlight mi = String.mk (s.data.take mi.index
      ++ ("<em>".data ++ mi.matched.data ++ "</em>".data)
      ++ s.data.drop (mi.index + mi.matched.data.length)) := by
  obtain ⟨_, hinput, _⟩ := matchString_some_elim h
  have hcs := matched_cs_occurrence h
  unfold highlight
  rw [hinput, replaceFirst_of_findSub _ hcs]

-- ------------------------------------------------------------------
-- Ranking lemmas
-- ------------------------------------------------------------------

/-- Rank of a category in the claimed order `Module > Child > Exception >
Mix Task` (smaller rank = shown earlier). -/
def catRank (c : Option String) : Nat :=
  if c = some "Module" then 0
  else if c = some "Child" then 1
  else if c = some "Exception" then 2
  else 3

theorem weightOf_eq (x : SuggestionItem) : weightOf x =
    if x.category = some "Module" then 3
    else if x.category = some "Child" then 2
    else if x.category = some "Exception" then 1
    else -1 := by
  unfold weightOf sortingPriority
  cases hx : x.category with
  | none => simp
  | some c =>
    by_cases h1 : c = "Module"
    · simp [h1]
    · by_cases h2 : c = "Child"
      · simp [h1, h2]
      · by_cases h3 : c = "Exception"
        · simp [h1, h2, h3]
        · by_cases h4 : c = "Mix Task"
          · simp [h1, h2, h3, h4]
          · simp [h1, h2, h3, h4]

theorem rank_le_of_weight_le (x y : SuggestionItem) (h : weightOf y ≤ weightOf x) :
    catRank x.category ≤ catRank y.category := by
  rw [weightOf_eq x, weightOf_eq y] at h
  unfold catRank
  split_ifs at h ⊢ <;> omega

theorem weightOf_congr {a b : SuggestionItem} (h : a.category = b.category) :
    weightOf a = weightOf b := by
  rw [weightOf_eq a, weightOf_eq b, h]

theorem mem_insertByWeight {x z : SuggestionItem} {l : List SuggestionItem} :
    z ∈ insertByWeight x l ↔ z = x ∨ z ∈ l := by
  induction l with
  | nil => simp [insertByWeight]
  | cons y ys ih =>
    unfold insertByWeight
    by_cases h : weightOf y ≤ weightOf x
    · simp [h]
    · rw [if_neg h]
      simp only [List.mem_cons, ih]
      tauto

theorem pairwise_insertByWeight {x : SuggestionItem} {l : List SuggestionItem}
    (hl : l.Pairwise (fun a b => weightOf b ≤ weightOf a)) :
    (insertByWeight x l).Pairwise (fun a b => weightOf b ≤ weightOf a) := by
  induction l with
  | nil => simp [insertByWeight]
  | cons y ys ih =>
    obtain ⟨hy, hys⟩ := List.pairwise_cons.mp hl
    unfold insertByWeight
    by_cases h : weightOf y ≤ weightOf x
    · rw [if_pos h]
      refine List.pairwise_cons.mpr ⟨?_, hl⟩
      intro z hz
      rcases List.mem_cons.mp hz with rfl | hz'
      · exact h
      · exact le_trans (hy z hz') h
    · rw [if_neg h]
      refine List.pairwise_cons.mpr ⟨?_, ih hys⟩
      intro z hz
      rcases mem_insertByWeight.mp hz with rfl | hz'
      · omega
      · exact hy z hz'

theorem sorted_sortResults (l : List SuggestionItem) :
    (sortResults l).Pairwise (fun a b => weightOf b ≤ weightOf a) := by
  unfold sortResults
  induction l with
  | nil => simp
  | cons x xs ih => exact pairwise_insertByWeight ih

theorem mem_sortResults {z : SuggestionItem} {l : List SuggestionItem} :
    z ∈ sortResults l ↔ z ∈ l := by
  unfold sortResults
  induction l with
  | nil => simp
  | cons x xs ih =>
    simp only [List.foldr_cons, mem_insertByWeight, ih, List.mem_cons]

theorem filter_insertByWeight (p : SuggestionItem → Bool)
    (hp : ∀ a b, p a = true → p b = true → weightOf a = weightOf b)
    (x : SuggestionItem) (l : List SuggestionItem) :
    (insertByWeight x l).filter p
      = if p x then x :: l.filter p else l.filter p := by
  induction l with
  | nil =>
    unfold insertByWeight
    by_cases hx : p x <;> simp [List.filter_cons, hx]
  | cons y ys ih =>
    unfold insertByWeight
    by_cases h : weightOf y ≤ weightOf x
    · rw [if_pos h]
      by_cases hx : p x <;> simp [List.filter_cons, hx]
    · rw [if_neg h]
      rw [List.filter_cons, ih]
      by_cases hx : p x
      · by_cases hy : p y
        · exfalso
          have := hp x y hx hy
          omega
        · simp [hx, hy, List.filter_cons]
      · simp [hx, List.filter_cons]

theorem filter_sortResults (p : SuggestionItem → Bool)
    (hp : ∀ a b, p a = true → p b = true → weightOf a = weightOf b)
    (l : List SuggestionItem) :
    (sortResults l).filter p = l.filter p := by
  unfold sortResults
  induction l with
  | nil => simp
  | cons x xs ih =>
    simp only [List.foldr_cons]
    rw [filter_insertByWeight p hp x _, ih, List.filter_cons]

-- ------------------------------------------------------------------
-- Membership in the flattened output
-- ------------------------------------------------------------------

theorem mem_flattenResults {s : SuggestionItem} {rs : List EntryResult} :
    s ∈ flattenResults rs ↔ ∃ r ∈ rs, s ∈ parseModuleResults r := by
  unfold flattenResults
  suffices haux : ∀ (rs : List EntryResult) (acc : List SuggestionItem),
      s ∈ rs.foldl (fun acc r => acc ++ parseModuleResults r) acc
        ↔ s ∈ acc ∨ ∃ r ∈ rs, s ∈ parseModuleResults r by
    simpa using haux rs []
  intro rs
  induction rs with
  | nil => simp
  | cons r rs ih =>
    intro acc
    simp only [List.foldl_cons, ih, List.mem_append, List.mem_cons]
    constructor
    · rintro (⟨h | h⟩ | ⟨r2, h2, h3⟩)
      · exact Or.inl h
      · exact Or.inr ⟨r, Or.inl rfl, h⟩
      · exact Or.inr ⟨r2, Or.inr h2, h3⟩
    · rintro (h | ⟨r2, (rfl | h2), h3⟩)
      · exact Or.inl (Or.inl h)
      · exact Or.inl (Or.inr h3)
      · exact Or.inr ⟨r2, h2, h3⟩

theorem mem_parseModuleResults {s : SuggestionItem} {m : EntryResult}
    (h : s ∈ parseModuleResults m) :
    (isMatchEntry m = true ∧ s = serializeModule m) ∨
    ∃ c ∈ m.functions ++ addLabel m.callbacks "callback" ++ addLabel m.types "type",
      isMatchChild c = true ∧ s = serializeChild c m.id := by
  unfold parseModuleResults at h
  have hchild : ∀ s2 : SuggestionItem,
      s2 ∈ ((m.functions ++ addLabel m.callbacks "callback" ++ addLabel m.types "type").filter
        isMatchChild).map (fun item => serializeChild item m.id) →
      ∃ c ∈ m.functions ++ addLabel m.callbacks "callback" ++ addLabel m.types "type",
        isMatchChild c = true ∧ s2 = serializeChild c m.id := by
    intro s2 hs2
    obtain ⟨c, hc, rfl⟩ := List.mem_map.mp hs2
    obtain ⟨hc1, hc2⟩ := List.mem_filter.mp hc
    exact ⟨c, hc1, hc2, rfl⟩
  by_cases hm : isMatchEntry m
  · rw [if_pos hm] at h
    rcases List.mem_cons.mp h with rfl | h2
    · exact Or.inl ⟨hm, rfl⟩
    · exact Or.inr (hchild s h2)
  · rw [if_neg hm] at h
    exact Or.inr (hchild s h)

-- ------------------------------------------------------------------
-- Concrete indexes used by the claims
-- ------------------------------------------------------------------

/-- Module `Foo` (title `Foo`) with child function `bar`. -/
def idxC1 : Index :=
  { modules := [{ id := "Foo"
                  title := some "Foo"
                  nodeGroups := [⟨"functions", [{ id := "bar" }]⟩] }] }

/-- Module with id `Mod` but title `Other`, child function `bar`. -/
def idxC1cex : Index :=
  { modules := [{ id := "Mod"
                  title := some "Other"
                  nodeGroups := [⟨"functions", [{ id := "bar" }]⟩] }] }

-- ------------------------------------------------------------------
-- C1
-- ------------------------------------------------------------------

/-- C1, counterexample.  The claim quantifies over a parent Entry with id
`p` and composite `p.c`, but the code builds the composite from the parent
TITLE (`findIn` passes its `title` variable to `findNested`).  For the
entry with id `Mod`, title `Other` and child `bar`, and query `Mod.bar`:
the claim hypotheses hold for `p = "Mod"` (the child does not match, the
composite `Mod.bar` matches, the prefix `Mod.` does not), so the claim
predicts a highlighted Child suggestion for `bar`; the code instead leaves
the child unhighlighted and the output contains only the Module item — no
Child item at all. -/
theorem c1_counterexample :
    matchString "Mod.bar" "bar" = none
    ∧ matchString "Mod.bar" ("Mod" ++ ".") = none
    ∧ (matchString "Mod.bar" ("Mod" ++ "." ++ "bar")).isSome = true
    ∧ getSuggestions idxC1cex "Mod.bar"
        = .ok [{ link := "Mod.html", title := some "Other", description := none,
                 label := none, category := some "Module" }] :=
  ⟨rfl, rfl, rfl, rfl⟩

/-- C1, amended: the nested matching rule holds with the parent's TITLE
(the string `findIn` hands to `findNested`) in place of the parent's id.
For every child entry with a non-empty id and every term: if the child id
does not match the matcher, the parent title followed by a dot does not
match, but the composite title-dot-child does, then the child is matched
against the matcher built from the last dot-separated segment of the term
(which always succeeds) and the match is highlighted.  In particular, for
the Module entry with id `Foo`, title `Foo` and child function `bar`, both
`Foo.bar` and the bare `bar` yield the Child SuggestionItem for `bar` with
description `Foo`. -/
theorem c1_nested_matching :
    (∀ (e : ChildEntry) (parentTitle term : String),
      e.id ≠ "" →
      matchString term e.id = none →
      matchString term (parentTitle ++ ".") = none →
      (matchString term (parentTitle ++ "." ++ e.id)).isSome = true →
      ∃ mi, matchString (lastSeg term) e.id = some mi ∧
        findNestedElement e parentTitle term term
          = .ok ({ id := e.id, anchor := e.anchor, matchText := highlight mi },
                 lastSeg term))
    ∧ getSuggestions idxC1 "Foo.bar"
        = .ok [{ link := "Foo.html", title := some "<em>bar</em>",
                 description := some "Foo", label := none, category := some "Child" }]
    ∧ getSuggestions idxC1 "bar"
        = .ok [{ link := "Foo.html", title := some "<em>bar</em>",
                 description := some "Foo", label := none, category := some "Child" }] := by
  refine ⟨?_, rfl, rfl⟩
  intro e parentTitle term hid hm hP hfull
  have hred := reducedMatch_isSome hP hm hfull
  obtain ⟨mi, hmi⟩ := Option.isSome_iff_exists.mp hred
  refine ⟨mi, hmi, ?_⟩
  have hft : ((matchString term (parentTitle ++ ".")).isNone
      && (matchString term (parentTitle ++ "." ++ e.id)).isSome) = true := by
    simp [hP, hfull]
  simp only [findNestedElement, if_neg hid, hm, hft, if_true, hmi]
  rfl

/-- C1, witness for the amended nested-matching rule at the concrete
inputs of the claim. -/
theorem c1_witness :
    ("bar" : String) ≠ ""
    ∧ matchString "Foo.bar" "bar" = none
    ∧ matchString "Foo.bar" ("Foo" ++ ".") = none
    ∧ (matchString "Foo.bar" ("Foo" ++ "." ++ "bar")).isSome = true
    ∧ ∃ mi, matchString (lastSeg "Foo.bar") "bar" = some mi ∧
        findNestedElement { id := "bar" } "Foo" "Foo.bar" "Foo.bar"
          = .ok ({ id := "bar", anchor := none, matchText := highlight mi },
                 lastSeg "Foo.bar") :=
  ⟨by decide, rfl, rfl, rfl,
    c1_nested_matching.1 { id := "bar" } "Foo" "Foo.bar" (by decide) rfl rfl rfl⟩

-- ------------------------------------------------------------------
-- C2
-- ------------------------------------------------------------------

/-- C2: for every Index and term, the returned sequence is sorted by the
fixed category priority `Module > Child > Exception > Mix Task` (here:
ascending `catRank`), and the sort is stable: for every category, the
output items of that category are an initial run of the pre-sort
concatenation (modules first, then exceptions, then tasks, parent before
its children within an entry) restricted to that category. -/
theorem c2_ranking (idx : Index) (term : String) (l : List SuggestionItem)
    (hok : getSuggestions idx term = .ok l) :
    l.Pairwise (fun a b => catRank a.category ≤ catRank b.category)
    ∧ ∀ rs, allResults idx term = .ok rs → ∀ cat : Option String,
        ∃ rest, l.filter (fun s => s.category == cat) ++ rest
          = (flattenResults rs).filter (fun s => s.category == cat) := by
  have hp : ∀ (cat : Option String) (a b : SuggestionItem),
      (a.category == cat) = true → (b.category == cat) = true →
      weightOf a = weightOf b := by
    intro cat a b ha hb
    exact weightOf_congr ((beq_iff_eq.mp ha).trans (beq_iff_eq.mp hb).symm)
  unfold getSuggestions at hok
  by_cases hw : term.data.all Char.isWhitespace
  · rw [if_pos hw] at hok
    injection hok with h
    subst h
    refine ⟨List.Pairwise.nil, ?_⟩
    intro rs _ cat
    exact ⟨(flattenResults rs).filter (fun s => s.category == cat), by simp⟩
  · rw [if_neg hw] at hok
    cases ha : allResults idx term with
    | error er => rw [ha] at hok; cases hok
    | ok rs0 =>
      rw [ha] at hok
      injection hok with h
      subst h
      constructor
      · have hs := sorted_sortResults (flattenResults rs0)
        have hsub := List.take_sublist resultsCount (sortResults (flattenResults rs0))
        exact (hs.sublist hsub).imp (fun hab => rank_le_of_weight_le _ _ hab)
      · intro rs hrs cat
        injection hrs with h2
        subst h2
        refine ⟨((sortResults (flattenResults rs0)).drop resultsCount).filter
          (fun s => s.category == cat), ?_⟩
        rw [← List.filter_append, List.take_append_drop,
          filter_sortResults _ (hp cat)]

/-- The ranking index: one matching Entry per category plus a matching
child. -/
def idxC2 : Index :=
  { modules := [{ id := "ModA"
                  title := some "xModA"
                  nodeGroups := [⟨"functions", [{ id := "xfun", anchor := some "xfun/0" }]⟩] }]
    exceptions := [{ id := "ExcA", title := some "xExcA" }]
    tasks := [{ id := "TaskA", title := some "xTaskA" }] }

/-- The output for `idxC2` and term `x`: exactly the category order
`Module`, `Child`, `Exception`, `Mix Task`. -/
def outC2 : List SuggestionItem :=
  [{ link := "ModA.html", title := some "<em>x</em>ModA", description := none,
     label := none, category := some "Module" },
   { link := "ModA.html#xfun/0", title := some "<em>x</em>fun", description := some "ModA",
     label := none, category := some "Child" },
   { link := "ExcA.html", title := some "<em>x</em>ExcA", description := none,
     label := none, category := some "Exception" },
   { link := "TaskA.html", title := some "<em>x</em>TaskA", description := none,
     label := none, category := some "Mix Task" }]

/-- C2, witness: one matching entry per category produces exactly the
claimed category sequence, and the ranking theorem applies to it. -/
theorem c2_witness :
    getSuggestions idxC2 "x" = .ok outC2
    ∧ outC2.Pairwise (fun a b => catRank a.category ≤ catRank b.category) :=
  ⟨rfl, (c2_ranking idxC2 "x" outC2 rfl).1⟩

-- ------------------------------------------------------------------
-- C3
-- ------------------------------------------------------------------

/-- An entry whose title differs from its id, with a child that matches
nothing. -/
def idxC3cex : Index :=
  { modules := [{ id := "Mod2"
                  title := some "Other2"
                  nodeGroups := [⟨"functions", [{ id := "bar2" }]⟩] }] }

/-- C3, counterexample, refuting the clause "an item that was not actually
highlighted never appears in the final output": for the query `zzz`
nothing matches at all (the title match is `none`), yet the Module item
appears in the output with its unchanged, unhighlighted title `Other2` —
it is kept because the presence of child nodes raises `hasMatch` and
because its unmatched title still differs from its id, so the
`match !== id` filter passes it. -/
theorem c3_counterexample :
    matchString "zzz" "Other2" = none
    ∧ matchString "zzz" "bar2" = none
    ∧ getSuggestions idxC3cex "zzz"
        = .ok [{ link := "Mod2.html", title := some "Other2", description := none,
                 label := none, category := some "Module" }] :=
  ⟨rfl, rfl, rfl⟩

/-- C3, amended: every item whose match string equals its id unchanged is
excluded from the flattened output, even when it was retained during
tree-matching because a descendant matched — each output SuggestionItem
originates from an entry result or child result that passes the
`match !== id` test (`isMatchEntry` / `isMatchChild`).  The converse
clause of the claim ("an item that was not actually highlighted never
appears") is dropped: an entry whose title differs from its id can appear
unhighlighted, as the counterexample shows. -/
theorem c3_match_eq_id_excluded (idx : Index) (term : String)
    (l : List SuggestionItem) (hok : getSuggestions idx term = .ok l)
    (s : SuggestionItem) (hs : s ∈ l) :
    ∃ rs, allResults idx term = .ok rs ∧ ∃ r ∈ rs,
      ((isMatchEntry r = true ∧ s = serializeModule r) ∨
        ∃ c ∈ r.functions ++ addLabel r.callbacks "callback" ++ addLabel r.types "type",
          isMatchChild c = true ∧ s = serializeChild c r.id) := by
  unfold getSuggestions at hok
  by_cases hw : term.data.all Char.isWhitespace
  · rw [if_pos hw] at hok
    injection hok with h
    subst h
    cases hs
  · rw [if_neg hw] at hok
    cases ha : allResults idx term with
    | error er => rw [ha] at hok; cases hok
    | ok rs =>
      rw [ha] at hok
      injection hok with h
      subst h
      have h1 := List.mem_of_mem_take hs
      have h2 := mem_sortResults.mp h1
      obtain ⟨r, hr, hmem⟩ := mem_flattenResults.mp h2
      exact ⟨rs, rfl, r, hr, mem_parseModuleResults hmem⟩

/-- Module `Baz` with child function `qux`. -/
def idxC3 : Index :=
  { modules := [{ id := "Baz"
                  title := some "Baz"
                  nodeGroups := [⟨"functions", [{ id := "qux" }]⟩] }] }

/-- The single output item of the query `qux` against `idxC3`. -/
def outC3 : SuggestionItem :=
  { link := "Baz.html", title := some "<em>qux</em>", description := some "Baz",
    label := none, category := some "Child" }

/-- C3, witness at a concrete run: the single output item of the query
`qux` against `idxC3` traces back to a child result passing the
`match !== id` filter. -/
theorem c3_witness :
    getSuggestions idxC3 "qux" = .ok [outC3]
    ∧ ∃ rs, allResults idxC3 "qux" = .ok rs ∧ ∃ r ∈ rs,
        ((isMatchEntry r = true ∧ outC3 = serializeModule r) ∨
          ∃ c ∈ r.functions ++ addLabel r.callbacks "callback" ++ addLabel r.types "type",
            isMatchChild c = true ∧ outC3 = serializeChild c r.id) :=
  ⟨rfl, c3_match_eq_id_excluded idxC3 "qux" [outC3] rfl outC3 (by simp)⟩

-- ------------------------------------------------------------------
-- C4
-- ------------------------------------------------------------------

/-- An entry with an id but no title. -/
def idxC4cex : Index := { modules := [{ id := "Zed" }] }

/-- C4, counterexample.  The claim says the engine matches the term
against the Entry's id when the Entry has no title; the code never falls
back to the id: `titleMatch = title && title.match(matcher)` short-circuits
on a missing title.  The term `Zed` would match the id `Zed`, yet the
entry produces no result at all. -/
theorem c4_counterexample :
    (matchString "Zed" "Zed").isSome = true
    ∧ findIn [{ id := "Zed" }] "Zed" = .ok []
    ∧ getSuggestions idxC4cex "Zed" = .ok [] :=
  ⟨rfl, rfl, rfl⟩

/-- C4, amended: the engine attempts to match the query term against the
Entry's title only.  When a title is present and matches, the matched span
is highlighted; when present and not matching, the unmodified title is
used as the match string with no highlight; when the title is absent (or
empty, hence falsy), no entry-level match is attempted and the match
string is the absent title itself — the id is never used as a fallback. -/
theorem c4_title_only (element : Entry) (term : String) :
    (∀ s mi, element.title = some s → s ≠ "" → matchString term s = some mi →
      entryMatchText element term = some (highlight mi))
    ∧ (∀ s, element.title = some s → matchString term s = none →
      entryMatchText element term = some s)
    ∧ (element.title = none →
      entryTitleMatch element term = none ∧ entryMatchText element term = none) := by
  refine ⟨?_, ?_, ?_⟩
  · intro s mi ht hs hm
    unfold entryMatchText entryTitleMatch
    rw [ht]
    simp only [if_neg hs, hm]
  · intro s ht hm
    unfold entryMatchText entryTitleMatch
    rw [ht]
    by_cases hs : s = ""
    · subst hs
      simp
    · simp only [if_neg hs, hm, ht]
  · intro ht
    unfold entryMatchText entryTitleMatch
    rw [ht]
    simp [ht]

/-- C4, witness: the round-trip of the spec — title `Enum`, term `enum` —
highlights the whole title, and a missing title yields no match. -/
theorem c4_witness :
    matchString "enum" "Enum" = some ⟨"Enum", "Enum", 0⟩
    ∧ entryMatchText { id := "Enum", title := some "Enum" } "enum"
        = some (highlight ⟨"Enum", "Enum", 0⟩)
    ∧ entryMatchText { id := "Zed" } "Zed" = none :=
  ⟨rfl,
    (c4_title_only { id := "Enum", title := some "Enum" } "enum").1
      "Enum" ⟨"Enum", "Enum", 0⟩ rfl (by decide) rfl,
    ((c4_title_only { id := "Zed" } "Zed").2.2 rfl).2⟩

-- ------------------------------------------------------------------
-- C5
-- ------------------------------------------------------------------

/-- An entry titled `FooBar`, for the case-insensitivity check. -/
def idxC5case : Index := { modules := [{ id := "FooBar", title := some "FooBar" }] }

/-- An entry titled `axb`, for the metacharacter-neutralisation check. -/
def idxC5meta : Index := { modules := [{ id := "axb", title := some "axb" }] }

/-- C5: the matcher is a case-insensitive literal substring matcher
(modelled from the spec, since `helpers.escapeText` is outside the
sources): two terms with the same case-folding match identically, the
queries `Foo` and `foo` return identical results for the entry titled
`FooBar`, and the term `a.b` does not match the entry id `axb` — the dot
is not a regex wildcard. -/
theorem c5_matcher_semantics :
    (∀ (t1 t2 s : String), lowerList t1.data = lowerList t2.data →
      matchString t1 s = matchString t2 s)
    ∧ getSuggestions idxC5case "Foo" = getSuggestions idxC5case "foo"
    ∧ getSuggestions idxC5meta "a.b" = .ok [] := by
  refine ⟨?_, rfl, rfl⟩
  intro t1 t2 s h
  unfold matchString
  have hlen : t1.data.length = t2.data.length := by
    have h2 := congrArg List.length h
    simpa [lowerList] using h2
  rw [h, hlen]

/-- C5, witness: the case-fold hypothesis holds for `Foo`/`foo`, and the
matcher agrees on them. -/
theorem c5_witness :
    lowerList "Foo".data = lowerList "foo".data
    ∧ matchString "Foo" "FooBar" = matchString "foo" "FooBar" :=
  ⟨by decide, c5_matcher_semantics.1 "Foo" "foo" "FooBar" (by decide)⟩

-- ------------------------------------------------------------------
-- C6
-- ------------------------------------------------------------------

/-- C6: `getSuggestions` returns at most 5 items (the first 5 after
sorting). -/
theorem c6_result_cap (idx : Index) (term : String) (l : List SuggestionItem)
    (hok : getSuggestions idx term = .ok l) : l.length ≤ 5 := by
  unfold getSuggestions at hok
  by_cases hw : term.data.all Char.isWhitespace
  · rw [if_pos hw] at hok
    injection hok with h
    subst h
    simp
  · rw [if_neg hw] at hok
    cases ha : allResults idx term with
    | error er => rw [ha] at hok; cases hok
    | ok rs =>
      rw [ha] at hok
      injection hok with h
      subst h
      rw [List.length_take]
      exact Nat.min_le_left _ _

/-- Seven matching modules, to exercise the cap. -/
def idxC6 : Index :=
  { modules := [{ id := "ab1", title := some "ab1" }, { id := "ab2", title := some "ab2" },
                { id := "ab3", title := some "ab3" }, { id := "ab4", title := some "ab4" },
                { id := "ab5", title := some "ab5" }, { id := "ab6", title := some "ab6" },
                { id := "ab7", title := some "ab7" }] }

/-- The five survivors of the seven matches of `idxC6` for the term `a`. -/
def outC6 : List SuggestionItem :=
  [{ link := "ab1.html", title := some "<em>a</em>b1", description := none,
     label := none, category := some "Module" },
   { link := "ab2.html", title := some "<em>a</em>b2", description := none,
     label := none, category := some "Module" },
   { link := "ab3.html", title := some "<em>a</em>b3", description := none,
     label := none, category := some "Module" },
   { link := "ab4.html", title := some "<em>a</em>b4", description := none,
     label := none, category := some "Module" },
   { link := "ab5.html", title := some "<em>a</em>b5", description := none,
     label := none, category := some "Module" }]

/-- C6, witness: seven matching entries are truncated to five. -/
theorem c6_witness :
    getSuggestions idxC6 "a" = .ok outC6 ∧ outC6.length ≤ 5 :=
  ⟨rfl, c6_result_cap idxC6 "a" outC6 rfl⟩

-- ------------------------------------------------------------------
-- C7
-- ------------------------------------------------------------------

/-- C7: an empty or whitespace-only term yields `ok []` — no search, no
error. -/
theorem c7_empty_term (idx : Index) (term : String)
    (h : term.data.all Char.isWhitespace = true) :
    getSuggestions idx term = .ok [] := by
  unfold getSuggestions
  rw [if_pos h]

/-- A small index for the empty-term witness. -/
def idxC7 : Index := { modules := [{ id := "Aa", title := some "Aa" }] }

/-- C7, witness at the empty and an all-whitespace term. -/
theorem c7_witness :
    getSuggestions idxC7 "" = .ok [] ∧ getSuggestions idxC7 "   " = .ok [] :=
  ⟨c7_empty_term idxC7 "" (by decide), c7_empty_term idxC7 "   " (by decide)⟩

-- ------------------------------------------------------------------
-- C8
-- ------------------------------------------------------------------

/-- C8: the engine is a pure function of `(Index, term)` — two calls with
the same arguments are identical — and the per-child deep copy
(`JSON.parse(JSON.stringify(element))`) reproduces the child entry
exactly, so annotating the copy with `match`/`label` cannot alter the
Index.  (In this pure embedding the absence of mutation is a property of
the model: every function takes the Index as a value and returns new
values; the deep-copy equation is the code feature that makes the
JavaScript original behave the same way.) -/
theorem c8_idempotent_pure :
    (∀ e : ChildEntry, deepCopyChild e = e)
    ∧ ∀ (idx : Index) (term : String), getSuggestions idx term = getSuggestions idx term :=
  ⟨fun _ => rfl, fun _ _ => rfl⟩

-- ------------------------------------------------------------------
-- C9
-- ------------------------------------------------------------------

/-- C9: whenever `findNested` takes the qualified-name branch (the child
id does not match, the parent prefix plus dot does not match, the
composite does), the match of the child id against the matcher built from
the last dot-segment of the term is always non-null; hence
`findNestedElement` with a non-empty child id never errors, and on any
Index whose child ids are all non-empty `getSuggestions` never errors. -/
theorem c9_qualified_branch_safe :
    (∀ (t P c : String), matchString t (P ++ ".") = none →
      matchString t c = none →
      (matchString t (P ++ "." ++ c)).isSome = true →
      (matchString (lastSeg t) c).isSome = true)
    ∧ (∀ (e : ChildEntry) (parentId matcher term : String),
        e.id ≠ "" → lastSeg term = lastSeg matcher →
        ∃ r term2, findNestedElement e parentId matcher term = .ok (r, term2))
    ∧ (∀ (idx : Index) (term : String), childIdsNonEmpty idx →
        ∃ l, getSuggestions idx term = .ok l) := by
  refine ⟨fun t P c hP hc hf => reducedMatch_isSome hP hc hf, ?_, ?_⟩
  · intro e parentId matcher term h1 h2
    obtain ⟨r, t2, hr, _⟩ := findNestedElement_ok e parentId matcher term h1 h2
    exact ⟨r, t2, hr⟩
  · exact fun idx term h => getSuggestions_ok idx term h

/-- A module with a child, for the safety witness. -/
def idxC9 : Index :=
  { modules := [{ id := "M"
                  title := some "M"
                  nodeGroups := [⟨"functions", [{ id := "f" }]⟩] }] }

/-- C9, witness: the non-empty-ids hypothesis holds for `idxC9` and a
dotted query runs without error. -/
theorem c9_witness :
    childIdsNonEmpty idxC9 ∧ ∃ l, getSuggestions idxC9 "M.f" = .ok l :=
  ⟨by decide, c9_qualified_branch_safe.2.2 idxC9 "M.f" (by decide)⟩

-- ------------------------------------------------------------------
-- C10
-- ------------------------------------------------------------------

/-- C10: `highlight` wraps exactly one substring in `<em>...</em>` — the
span found by the matcher, which sits at the least index at which the
case-folded term occurs in the case-folded string — and reproduces the
rest of the string unchanged before and after the wrap, so all later
occurrences are left unmarked. -/
theorem c10_highlight_scope (t s : String) (mi : MatchInfo)
    (h : matchString t s = some mi) :
    highlight mi = String.mk (s.data.take mi.index
      ++ ("<em>".data ++ mi.matched.data ++ "</em>".data)
      ++ s.data.drop (mi.index + mi.matched.data.length))
    ∧ occursAt (lowerList t.data) (lowerList s.data) mi.index
    ∧ ∀ j, j < mi.index → ¬ occursAt (lowerList t.data) (lowerList s.data) j := by
  obtain ⟨hf, _, _⟩ := matchString_some_elim h
  exact ⟨highlight_eq h, findSub_some_occurs hf, findSub_min hf⟩

/-- C10, witness: in `abb` the term `B` matches leftmost at index 1; only
that occurrence is wrapped, the second `b` stays unmarked. -/
theorem c10_witness :
    matchString "B" "abb" = some ⟨"abb", "b", 1⟩
    ∧ highlight ⟨"abb", "b", 1⟩ = "a<em>b</em>b" := by
  refine ⟨rfl, ?_⟩
  have h := (c10_highlight_scope "B" "abb" ⟨"abb", "b", 1⟩ rfl).1
  rw [h]
  rfl

end Suggestions
